import Mathlib

/-!
# Verification of the docker-registry tag-truncation scripts

A shallow embedding of `src/docker-registry/truncate_image.py` and
`src/docker-registry/truncate_all_image.py`, together with proofs about the
retention-decision engine (`manage_image_tags`), the tie-break sorter
(`sort_tags_with_dates`), the deletion dispatcher (`delete_tag` loop), and the
repository iterator (`truncate_all_images`).

Registry collaborators (HTTP calls) are modelled as oracles: the tag list is an
`Except` value (an HTTP error raises), creation dates are `String → Option Nat`
(`none` models both a failed manifest/blob fetch and an empty `created` field,
which the code maps to `datetime.min`), digest resolution is
`String → Option String` (`none` models an HTTP error on the `HEAD` request or
a missing header), and the `DELETE` status code is a `String → Nat` function.

Semantic versions follow the `semver` (version 3) Python library used by the
script: `Version.is_valid` / `Version.parse` implement the semver 2.0.0
grammar, `str(version)` re-renders the stored components, and comparison is by
precedence (build metadata ignored, numeric identifiers below alphanumeric
ones, a missing pre-release above any pre-release).
-/

namespace Registry

/-! ## Decimal numerals

The Python `semver` library stores `major`/`minor`/`patch` as `int` and
re-renders them in decimal.  The grammar only admits canonical numerals
(`0|[1-9][0-9]*`), so parsing and re-rendering the numeral round-trips. -/

/-- The numeric value of a decimal digit character. -/
def charDigitVal (c : Char) : ℕ := c.toNat - 48

/-- The decimal digit character for a value `0`–`9`. -/
def digitToChar (d : ℕ) : Char :=
  match d with
  | 0 => '0' | 1 => '1' | 2 => '2' | 3 => '3' | 4 => '4'
  | 5 => '5' | 6 => '6' | 7 => '7' | 8 => '8' | 9 => '9'
  | _ => '*'

/-- Structural-recursion renderer for positive naturals (`fuel`-bounded so that
it reduces in the kernel); digits come out most-significant first. -/
def natToCharsAux : ℕ → ℕ → List Char
  | 0, _ => []
  | fuel + 1, n => if n = 0 then [] else natToCharsAux fuel (n / 10) ++ [digitToChar (n % 10)]

/-- Decimal rendering of a natural number, as Python's `str` on `int`. -/
def natToChars (n : ℕ) : List Char :=
  if n = 0 then ['0'] else natToCharsAux n n

/-- A canonical decimal numeral: nonempty, all digits, no leading zero
(the semver grammar's `0|[1-9][0-9]*`). -/
def isNumeral (l : List Char) : Bool :=
  !l.isEmpty && l.all Char.isDigit && (l = ['0'] || l.head? ≠ some '0')

/-- The value of a digit string (most-significant digit first). -/
def charsToNat (l : List Char) : ℕ :=
  Nat.ofDigits 10 (l.map charDigitVal).reverse

/-! ## Character-list splitting

`str.split(sep)` and "everything after the first occurrence" helpers, used both
by the semver grammar (splitting `major.minor.patch`, the pre-release and build
separators) and by the comparison (splitting pre-release identifiers on
`"."`). -/

/-- Split at the first occurrence of `c`: `(before, some after)`, or
`(l, none)` when `c` does not occur. -/
def splitAtFirst (c : Char) : List Char → List Char × Option (List Char)
  | [] => ([], none)
  | x :: xs =>
    if x = c then ([], some xs)
    else
      let r := splitAtFirst c xs
      (x :: r.1, r.2)

/-- Python `str.split(c)` on character lists (`splitOnChar c [] = [[]]`,
like `"".split(c) == [""]`). -/
def splitOnCharAux (c : Char) : List Char → List Char → List (List Char)
  | [], acc => [acc.reverse]
  | x :: xs, acc =>
    if x = c then acc.reverse :: splitOnCharAux c xs []
    else splitOnCharAux c xs (x :: acc)

def splitOnChar (c : Char) (l : List Char) : List (List Char) :=
  splitOnCharAux c l []

/-- Python `c.join(parts)`. -/
def joinWithChar (c : Char) : List (List Char) → List Char
  | [] => []
  | [p] => p
  | p :: ps => p ++ c :: joinWithChar c ps

/-! ## Semantic versions

The `semver` (v3) Python library: `Version.parse` matches the semver 2.0.0
grammar, stores `major`/`minor`/`patch` as ints and the pre-release and build
parts as raw strings; `str(version)` re-renders
`"{major}.{minor}.{patch}[-{prerelease}][+{build}]"`.  Since the `+` character
can occur nowhere in the core or pre-release part and `-` cannot occur in the
numeric core, splitting at the first `+` and then at the first `-` recovers
exactly the regex decomposition. -/

structure Version where
  major : ℕ
  minor : ℕ
  patch : ℕ
  prerelease : Option (List Char)
  build : Option (List Char)
deriving DecidableEq, Repr

/-- Characters admitted in pre-release/build identifiers: `[0-9A-Za-z-]`. -/
def isIdentChar (c : Char) : Bool := c.isDigit || c.isAlpha || c = '-'

/-- A pre-release identifier: `0|[1-9][0-9]*|[0-9]*[A-Za-z-][0-9A-Za-z-]*`
(equivalently: nonempty, over the identifier alphabet, and canonical if purely
numeric). -/
def isPreIdent (l : List Char) : Bool :=
  !l.isEmpty && l.all isIdentChar && (!(l.all Char.isDigit) || isNumeral l)

/-- A build identifier: `[0-9A-Za-z-]+`. -/
def isBuildIdent (l : List Char) : Bool :=
  !l.isEmpty && l.all isIdentChar

/-- `semver.Version.parse` on a character list; `none` models `ValueError`
(so `semver.Version.is_valid` is `(parseVersionChars s).isSome`). -/
def parseVersionChars (s : List Char) : Option Version :=
  match splitOnChar '.' (splitAtFirst '-' (splitAtFirst '+' s).1).1 with
  | [ma, mi, pa] =>
    if isNumeral ma && isNumeral mi && isNumeral pa
        && (match (splitAtFirst '-' (splitAtFirst '+' s).1).2 with
            | none => true
            | some p => (splitOnChar '.' p).all isPreIdent)
        && (match (splitAtFirst '+' s).2 with
            | none => true
            | some b => (splitOnChar '.' b).all isBuildIdent) then
      some ⟨charsToNat ma, charsToNat mi, charsToNat pa,
        (splitAtFirst '-' (splitAtFirst '+' s).1).2, (splitAtFirst '+' s).2⟩
    else none
  | _ => none

/-- `semver.Version.parse` on tag strings. -/
def parseVersion (s : String) : Option Version := parseVersionChars s.data

/-- `str(version)`, as a character list. -/
def versionChars (v : Version) : List Char :=
  natToChars v.major ++ ('.' :: natToChars v.minor) ++ ('.' :: natToChars v.patch)
    ++ (match v.prerelease with | some p => '-' :: p | none => [])
    ++ (match v.build with | some b => '+' :: b | none => [])

/-- `str(version)`: the grouping key used by `sort_tags_with_dates`. -/
def versionStr (v : Version) : String := ⟨versionChars v⟩

/-! ## Version precedence

`semver.Version.compare`: numeric comparison of `major.minor.patch`, then the
pre-release parts.  A missing (or empty, hence falsy) pre-release is greater
than any pre-release; otherwise the dot-separated identifiers are compared
pairwise (both numeric → as integers; numeric sorts below alphanumeric;
both alphanumeric → code-point string comparison) and finally by length.
We realise this as an injection into a lexicographic linear order, so
transitivity and totality come for free. -/

/-- A pre-release identifier as compared by `semver`: purely numeric
identifiers (converted to `int`) sort below alphanumeric ones (compared as
code-point sequences). -/
def identKey (l : List Char) : Lex (ℕ ⊕ List ℕ) :=
  if !l.isEmpty && l.all Char.isDigit then toLex (Sum.inl (charsToNat l))
  else toLex (Sum.inr (l.map Char.toNat))

/-- The pre-release component of the comparison key: `None` (or the falsy
empty string) is above every actual pre-release; actual pre-releases compare
by their identifier sequences, shorter prefixes first. -/
def preKey (pre : Option (List Char)) : Lex (List (Lex (ℕ ⊕ List ℕ)) ⊕ Unit) :=
  match pre with
  | none => toLex (Sum.inr ())
  | some [] => toLex (Sum.inr ())
  | some p => toLex (Sum.inl ((splitOnChar '.' p).map identKey))

/-- The full precedence key of `semver.Version.compare` (build metadata is
ignored). -/
def versionKey (v : Version) :
    Lex (ℕ × Lex (ℕ × Lex (ℕ × Lex (List (Lex (ℕ ⊕ List ℕ)) ⊕ Unit)))) :=
  toLex (v.major, toLex (v.minor, toLex (v.patch, preKey v.prerelease)))

/-- `Version.__le__` restricted to the first pair component; the comparator of
Python's stable `list.sort(key=lambda x: x[0])`. -/
def pairLe (a b : Version × String) : Prop := versionKey a.1 ≤ versionKey b.1

instance : DecidableRel pairLe :=
  fun x y => inferInstanceAs (Decidable (versionKey x.1 ≤ versionKey y.1))

instance : IsTotal (Version × String) pairLe := ⟨fun _ _ => le_total _ _⟩

instance : IsTrans (Version × String) pairLe := ⟨fun _ _ _ => le_trans⟩

/-- Python truthiness of `v.prerelease` (`if v.prerelease:`). -/
def isPre (v : Version) : Bool :=
  match v.prerelease with
  | some p => !p.isEmpty
  | none => false

/-! ## `sort_tags_with_dates`

Groups a `(version, tag)` list by `str(version)` (a Python dict: keys in
first-occurrence order, members in list order), sorts each multi-member group
by creation date (oldest first, a stable sort), concatenates the groups, and
finally stable-sorts everything by version.  Creation dates are fetched from
the registry only for members of multi-member groups
(`get_tag_created_date`). -/

/-- `datetime.min`, the sentinel for a missing or unreadable creation date. -/
def datetimeMin : ℕ := 0

/-- `get_tag_created_date`: the manifest/config fetch either yields a
timestamp or (on any exception, or an empty `created` field) `datetime.min`.
The collaborator is the oracle `o`. -/
def getTagCreatedDate (o : String → Option ℕ) (t : String) : ℕ :=
  match o t with
  | some d => d
  | none => datetimeMin

/-- The dict key of `sort_tags_with_dates`: `str(version)`. -/
def tagKey (p : Version × String) : String := versionStr p.1

/-- Keys in first-occurrence order (Python dict insertion order). -/
def firstKeysAux : List String → List String → List String
  | [], _ => []
  | k :: ks, seen =>
    if k ∈ seen then firstKeysAux ks seen
    else k :: firstKeysAux ks (k :: seen)

def firstKeys (ks : List String) : List String := firstKeysAux ks []

/-- The members of the group with key `k`, in input order. -/
def groupOf (l : List (Version × String)) (k : String) : List (Version × String) :=
  l.filter (fun p => tagKey p = k)

/-- Date comparator on `((version, tag), created_date)` triples. -/
def dateLe (a b : (Version × String) × ℕ) : Prop := a.2 ≤ b.2

instance : DecidableRel dateLe :=
  fun x y => inferInstanceAs (Decidable (x.2 ≤ y.2))

instance : IsTotal ((Version × String) × ℕ) dateLe := ⟨fun _ _ => le_total _ _⟩

instance : IsTrans ((Version × String) × ℕ) dateLe := ⟨fun _ _ _ => le_trans⟩

/-- Attach each group member's creation date (the collaborator round-trip). -/
def withDates (o : String → Option ℕ) (g : List (Version × String)) :
    List ((Version × String) × ℕ) :=
  g.map (fun p => (p, getTagCreatedDate o p.2))

/-- Sort one group by creation date, oldest first (Python's stable sort on
the date component), and drop the dates again. -/
def dateSort (o : String → Option ℕ) (g : List (Version × String)) :
    List (Version × String) :=
  ((withDates o g).insertionSort dateLe).map Prod.fst

/-- A group is date-sorted only when it has more than one member. -/
def processGroup (o : String → Option ℕ) (g : List (Version × String)) :
    List (Version × String) :=
  if 1 < g.length then dateSort o g else g

/-- The tags for which `sort_tags_with_dates` fetches a creation date:
members of multi-member groups, in fetch order. -/
def fetchedTags (l : List (Version × String)) : List String :=
  (firstKeys (l.map tagKey)).flatMap (fun k =>
    if 1 < (groupOf l k).length then (groupOf l k).map Prod.snd else [])

/-- `sort_tags_with_dates`. -/
def sortTagsWithDates (o : String → Option ℕ) (l : List (Version × String)) :
    List (Version × String) :=
  match l with
  | [] => []
  | _ => ((firstKeys (l.map tagKey)).flatMap
      (fun k => processGroup o (groupOf l k))).insertionSort pairLe

/-! ## The retention selector (`manage_image_tags`, pure core) -/

/-- `version_tags`: the input tags that pass `semver.Version.is_valid`. -/
def versionTags (tags : List String) : List String :=
  tags.filter (fun t => (parseVersion t).isSome)

/-- Valid tags paired with their parsed versions, in input order. -/
def taggedVersions (tags : List String) : List (Version × String) :=
  tags.filterMap (fun t => (parseVersion t).map (fun v => (v, t)))

/-- `stable_tags` before sorting. -/
def stableTags (tags : List String) : List (Version × String) :=
  (taggedVersions tags).filter (fun p => !isPre p.1)

/-- `prerelease_tags` before sorting. -/
def prereleaseTags (tags : List String) : List (Version × String) :=
  (taggedVersions tags).filter (fun p => isPre p.1)

/-- The ascending stable sequence `S`. -/
def stableSorted (tags : List String) (o : String → Option ℕ) :
    List (Version × String) :=
  sortTagsWithDates o (stableTags tags)

/-- The ascending pre-release sequence `P`. -/
def preSorted (tags : List String) (o : String → Option ℕ) :
    List (Version × String) :=
  sortTagsWithDates o (prereleaseTags tags)

/-- The two floor guarantees: always keep the newest stable tag, and the
newest pre-release when there is no stable tag or it is strictly newer than
the newest stable. -/
def floorSet (S P : List (Version × String)) : Finset String :=
  let k1 : Finset String :=
    match S.getLast? with
    | some p => {p.2}
    | none => ∅
  match P.getLast? with
  | some q =>
    match S.getLast? with
    | none => insert q.2 k1
    | some p => if versionKey p.1 < versionKey q.1 then insert q.2 k1 else k1
  | none => k1

/-- Python's `list.sort(key=..., reverse=True)`: reverse, stable-sort
ascending, reverse (CPython's implementation, which keeps equal-key elements
in their original relative order). -/
def pySortDesc (l : List (Version × String)) : List (Version × String) :=
  (l.reverse.insertionSort pairLe).reverse

/-- `all_versions`: stable and pre-release sequences merged, newest first. -/
def mergedDesc (S P : List (Version × String)) : List (Version × String) :=
  pySortDesc (S ++ P)

/-- The budget-fill loop: walk the merged descending sequence, adding tags
until the keep-set reaches `keep` elements (checked before each add). -/
def fillLoop (keep : ℕ) : List (Version × String) → Finset String → Finset String
  | [], s => s
  | p :: rest, s => if keep ≤ s.card then s else fillLoop keep rest (insert p.2 s)

/-- The final `tags_to_keep` of `manage_image_tags`. -/
def keepSet (tags : List String) (o : String → Option ℕ) (keep : ℕ) :
    Finset String :=
  fillLoop keep (mergedDesc (stableSorted tags o) (preSorted tags o))
    (floorSet (stableSorted tags o) (preSorted tags o))

/-- `tags_to_delete`: every valid tag not kept, in input order. -/
def tagsToDelete (tags : List String) (o : String → Option ℕ) (keep : ℕ) :
    List String :=
  (versionTags tags).filter (fun t => t ∉ keepSet tags o keep)

/-! ## Registry interaction models

The remaining claims concern control flow around collaborator failures, so we
model `manage_image_tags` (and `truncate_all_images`) with an explicit list of
collaborator calls and a Python-exception-style `Except` result. -/

/-- One collaborator (HTTP) call issued by the scripts. -/
inductive RegCall where
  | listTags : RegCall
  | fetchCreated (tag : String) : RegCall
  | headManifest (tag : String) : RegCall
  | deleteManifest (digest : String) : RegCall
deriving DecidableEq, Repr

/-- An exception escaping `manage_image_tags`: the `ValueError` raised for a
non-positive `keep`, or a `requests` `HTTPError` propagating from
`raise_for_status` / a missing response header. -/
inductive ManageError where
  | valueError : ManageError
  | httpError : ManageError
deriving DecidableEq, Repr

/-- The registry collaborator for one repository.  `tagList` is the result of
`get_image_tags` (`Except.error` models an HTTP error raised by
`raise_for_status`; `some none` inside would model a JSON null — the script
checks `tags is None`).  `created` backs `get_tag_created_date`; `digest`
models the `HEAD` resolution of `delete_tag` (`none` = HTTP error or missing
`Docker-Content-Digest` header, which raises); `delStatus` is the status code
of the final `DELETE` (202 = success, anything else is only printed). -/
structure RegEnv where
  tagList : Except Unit (Option (List String))
  created : String → Option ℕ
  digest : String → Option String
  delStatus : String → ℕ

/-- Per-tag outcome of `delete_tag` when the digest resolution succeeded. -/
inductive DelOutcome where
  | deleted : DelOutcome
  | failed (status : ℕ) : DelOutcome
deriving DecidableEq, Repr

/-- `delete_tag`: resolve the tag to a digest (raising on failure), then
`DELETE` by digest; a non-202 status is reported, not raised. -/
def deleteTag (env : RegEnv) (t : String) : Except Unit DelOutcome :=
  match env.digest t with
  | none => .error ()
  | some d => .ok (if env.delStatus d = 202 then .deleted else .failed (env.delStatus d))

/-- The deletion loop of `manage_image_tags` over `tags_to_delete`: per-tag
outcomes in order, plus `some (t, rest)` when `delete_tag t` raised with
`rest` still unattempted. -/
def deleteBatch (env : RegEnv) :
    List String → List (String × DelOutcome) × Option (String × List String)
  | [] => ([], none)
  | t :: rest =>
    match deleteTag env t with
    | .error _ => ([], some (t, rest))
    | .ok r =>
      let x := deleteBatch env rest
      ((t, r) :: x.1, x.2)

/-- The collaborator calls issued by the deletion loop, in order. -/
def deleteBatchCalls (env : RegEnv) : List String → List RegCall
  | [] => []
  | t :: rest =>
    match env.digest t with
    | none => [RegCall.headManifest t]
    | some d => RegCall.headManifest t :: RegCall.deleteManifest d :: deleteBatchCalls env rest

/-- `manage_image_tags`, with its observable effects: the exception (if any)
and the ordered list of collaborator calls.  The `keep <= 0` check happens
before the tag listing; then tags are listed, creation dates are fetched for
multi-member version groups (stable first, then pre-release), and the computed
delete list is dispatched. -/
def manageImageTags (env : RegEnv) (keep : ℤ) :
    Except ManageError Unit × List RegCall :=
  if keep ≤ 0 then (.error .valueError, [])
  else
    match env.tagList with
    | .error _ => (.error .httpError, [RegCall.listTags])
    | .ok none => (.ok (), [RegCall.listTags])
    | .ok (some tags) =>
      if versionTags tags = [] then (.ok (), [RegCall.listTags])
      else
        let fetches := (fetchedTags (stableTags tags)).map RegCall.fetchCreated
          ++ (fetchedTags (prereleaseTags tags)).map RegCall.fetchCreated
        let dels := tagsToDelete tags env.created keep.toNat
        (match (deleteBatch env dels).2 with
          | some _ => .error .httpError
          | none => .ok (),
         RegCall.listTags :: fetches ++ deleteBatchCalls env dels)

/-- `truncate_all_images`: run `manage_image_tags` for each repository from
the catalog, with no exception handling around the loop body.  Returns the
repositories for which `manage_image_tags` was invoked (in order) and whether
the loop was aborted by a propagating exception. -/
def truncateAllImages (envOf : String → RegEnv) (keep : ℤ) :
    List String → List String × Bool
  | [] => ([], false)
  | r :: rest =>
    match (manageImageTags (envOf r) keep).1 with
    | .error _ => ([r], true)
    | .ok _ =>
      let x := truncateAllImages envOf keep rest
      (r :: x.1, x.2)

/-- The input list stable-sorted by semantic-version precedence alone — the
specification-side description of what `sort_tags_with_dates` does when every
group is a singleton. -/
def sortedByPrecedence (l : List (Version × String)) : List (Version × String) :=
  l.insertionSort pairLe

/-! ## Proofs -/

theorem char_le_toNat {c d : Char} (h : c ≤ d) : c.toNat ≤ d.toNat := by
  rw [Char.le_def, UInt32.le_def, BitVec.le_def] at h
  exact h

theorem uint32_le_toNat {a b : UInt32} (h : a ≤ b) : a.toNat ≤ b.toNat := by
  rw [UInt32.le_def, BitVec.le_def] at h
  exact h

theorem isDigit_toNat_bounds {c : Char} (h : c.isDigit) :
    48 ≤ c.toNat ∧ c.toNat ≤ 57 := by
  simp only [Char.isDigit, Bool.and_eq_true, decide_eq_true_iff] at h
  obtain ⟨h1, h2⟩ := h
  constructor
  · simpa [Char.toNat] using uint32_le_toNat h1
  · simpa [Char.toNat] using uint32_le_toNat h2

theorem charDigitVal_lt_ten {c : Char} (h : c.isDigit) : charDigitVal c < 10 := by
  have := isDigit_toNat_bounds h
  simp only [charDigitVal]
  omega

theorem digitToChar_charDigitVal {c : Char} (h : c.isDigit) :
    digitToChar (charDigitVal c) = c := by
  obtain ⟨hlo, hhi⟩ := isDigit_toNat_bounds h
  have hval : c = Char.ofNat c.toNat := (Char.ofNat_toNat c).symm
  have : c.toNat = 48 ∨ c.toNat = 49 ∨ c.toNat = 50 ∨ c.toNat = 51 ∨ c.toNat = 52 ∨
      c.toNat = 53 ∨ c.toNat = 54 ∨ c.toNat = 55 ∨ c.toNat = 56 ∨ c.toNat = 57 := by omega
  rcases this with h | h | h | h | h | h | h | h | h | h <;>
    · rw [hval, h]; rfl

theorem charDigitVal_ne_zero {c : Char} (hd : c.isDigit) (h : c ≠ '0') :
    charDigitVal c ≠ 0 := by
  obtain ⟨hlo, hhi⟩ := isDigit_toNat_bounds hd
  intro hv
  apply h
  have : c.toNat = 48 := by simp only [charDigitVal] at hv; omega
  rw [← Char.ofNat_toNat c, this]

theorem natToCharsAux_eq_digits {fuel : ℕ} : ∀ {n : ℕ}, n ≤ fuel →
    natToCharsAux fuel n = ((Nat.digits 10 n).reverse.map digitToChar) := by
  induction fuel with
  | zero => intro n hn; interval_cases n; simp [natToCharsAux]
  | succ fuel ih =>
    intro n hn
    by_cases h0 : n = 0
    · subst h0; simp [natToCharsAux]
    · have hpos : 0 < n := Nat.pos_of_ne_zero h0
      rw [natToCharsAux, if_neg h0, Nat.digits_def' (by norm_num : 1 < 10) hpos]
      have hle : n / 10 ≤ fuel := by
        have := Nat.div_lt_self hpos (by norm_num : 1 < 10)
        omega
      rw [ih hle]
      simp

theorem natToChars_charsToNat {l : List Char} (h : isNumeral l) :
    natToChars (charsToNat l) = l := by
  simp only [isNumeral, Bool.and_eq_true, Bool.or_eq_true, Bool.not_eq_true',
    List.isEmpty_eq_false, List.all_eq_true, decide_eq_true_iff] at h
  obtain ⟨⟨hne, hdig⟩, hcanon⟩ := h
  by_cases hz : l = ['0']
  · subst hz; rfl
  have hhead : l.head? ≠ some '0' := by
    rcases hcanon with h0 | hh
    · exact absurd h0 hz
    · exact hh
  have hdigits : Nat.digits 10 (charsToNat l) = (l.map charDigitVal).reverse := by
    apply Nat.digits_ofDigits 10 (by norm_num)
    · intro d hd
      simp only [List.mem_reverse, List.mem_map] at hd
      obtain ⟨c, hc, rfl⟩ := hd
      exact charDigitVal_lt_ten (hdig c hc)
    · intro hL
      cases l with
      | nil => exact absurd rfl hne
      | cons c cs =>
        have hcne : c ≠ '0' := by
          intro hc; exact hhead (by simp [hc])
        rw [List.getLast_reverse]
        simp only [List.map_cons, List.head_cons]
        exact charDigitVal_ne_zero (hdig c (by simp)) hcne
  have hv0 : charsToNat l ≠ 0 := by
    intro hzz
    rw [hzz] at hdigits
    simp only [Nat.digits_zero] at hdigits
    have : l.map charDigitVal = [] := by
      have := congrArg List.reverse hdigits
      simpa using this.symm
    cases l with
    | nil => exact hne rfl
    | cons c cs => simp at this
  rw [natToChars, if_neg hv0, natToCharsAux_eq_digits (le_refl _), hdigits]
  simp only [List.reverse_reverse, List.map_map]
  have : ∀ c ∈ l, (digitToChar ∘ charDigitVal) c = id c := by
    intro c hc
    simp only [Function.comp_apply, id_eq]
    exact digitToChar_charDigitVal (hdig c hc)
  rw [List.map_congr_left this, List.map_id]

theorem splitAtFirst_snd_none {c : Char} : ∀ {l : List Char},
    (splitAtFirst c l).2 = none → (splitAtFirst c l).1 = l := by
  intro l
  induction l with
  | nil => intro _; rfl
  | cons x xs ih =>
    intro h
    by_cases hx : x = c
    · simp [splitAtFirst, hx] at h
    · simp only [splitAtFirst, if_neg hx] at h ⊢
      rw [ih h]

theorem splitAtFirst_snd_some {c : Char} : ∀ {l b : List Char},
    (splitAtFirst c l).2 = some b → l = (splitAtFirst c l).1 ++ c :: b := by
  intro l
  induction l with
  | nil => intro b h; simp [splitAtFirst] at h
  | cons x xs ih =>
    intro b h
    by_cases hx : x = c
    · have hsp : splitAtFirst c (x :: xs) = ([], some xs) := by
        simp [splitAtFirst, hx]
      rw [hsp] at h
      rw [hsp]
      simp only [Option.some_inj] at h
      rw [← h, List.nil_append, hx]
    · simp only [splitAtFirst, if_neg hx] at h ⊢
      simp only [List.cons_append]
      exact congrArg (List.cons x) (ih h)

theorem splitOnCharAux_ne_nil {c : Char} : ∀ {l acc : List Char},
    splitOnCharAux c l acc ≠ [] := by
  intro l
  induction l with
  | nil => intro acc; simp [splitOnCharAux]
  | cons x xs ih =>
    intro acc
    by_cases hx : x = c
    · simp [splitOnCharAux, hx]
    · simpa [splitOnCharAux, hx] using ih

theorem joinWithChar_cons {c : Char} {a : List Char} {rest : List (List Char)}
    (h : rest ≠ []) : joinWithChar c (a :: rest) = a ++ c :: joinWithChar c rest := by
  cases rest with
  | nil => exact absurd rfl h
  | cons b bs => rfl

theorem joinWithChar_splitOnCharAux {c : Char} : ∀ {l k : List Char},
    joinWithChar c (splitOnCharAux c l k) = k.reverse ++ l := by
  intro l
  induction l with
  | nil => intro acc; simp [splitOnCharAux, joinWithChar]
  | cons x xs ih =>
    intro acc
    by_cases hx : x = c
    · subst hx
      rw [splitOnCharAux, if_pos rfl, joinWithChar_cons splitOnCharAux_ne_nil, ih]
      simp
    · rw [splitOnCharAux, if_neg hx, ih]
      simp

theorem joinWithChar_splitOnChar (c : Char) (l : List Char) :
    joinWithChar c (splitOnChar c l) = l := by
  have h := joinWithChar_splitOnCharAux (c := c) (l := l) (k := ([] : List Char))
  simpa [splitOnChar] using h

/-- Parsing a valid tag and re-rendering it gives the tag back: the stored
components are exactly the matched substrings and the numeric core is
canonical. -/
theorem versionChars_parse {s : List Char} {v : Version}
    (h : parseVersionChars s = some v) : versionChars v = s := by
  unfold parseVersionChars at h
  split at h
  case h_2 => simp at h
  case h_1 ma mi pa heq =>
    split at h
    case isFalse => simp at h
    case isTrue hcond =>
      simp only [Bool.and_eq_true] at hcond
      obtain ⟨⟨⟨⟨hma, hmi⟩, hpa⟩, hpre⟩, hbld⟩ := hcond
      rw [Option.some_inj] at h
      subst h
      have hcore : (splitAtFirst '-' (splitAtFirst '+' s).1).1 =
          ma ++ ('.' :: (mi ++ ('.' :: pa))) := by
        have hj := joinWithChar_splitOnChar '.' (splitAtFirst '-' (splitAtFirst '+' s).1).1
        rw [heq] at hj
        rw [← hj]
        rfl
      show versionChars _ = s
      simp only [versionChars, natToChars_charsToNat hma, natToChars_charsToNat hmi,
        natToChars_charsToNat hpa]
      cases hp2 : (splitAtFirst '-' (splitAtFirst '+' s).1).2 with
      | none =>
        have h1 : (splitAtFirst '+' s).1 = ma ++ ('.' :: (mi ++ ('.' :: pa))) := by
          rw [← splitAtFirst_snd_none hp2, hcore]
        cases hp1 : (splitAtFirst '+' s).2 with
        | none =>
          have h2 := splitAtFirst_snd_none hp1
          rw [← h2, h1]
          simp
        | some b =>
          have h2 := splitAtFirst_snd_some hp1
          rw [h2, h1]
          simp
      | some p =>
        have h1 := splitAtFirst_snd_some hp2
        rw [hcore] at h1
        cases hp1 : (splitAtFirst '+' s).2 with
        | none =>
          have h2 := splitAtFirst_snd_none hp1
          rw [← h2, h1]
          simp
        | some b =>
          have h2 := splitAtFirst_snd_some hp1
          rw [h2, h1]
          simp

/-- String-level round trip: for a valid semver tag, `str(Version.parse(tag))`
is the tag itself (build metadata included). -/
theorem versionStr_parseVersion {t : String} {v : Version}
    (h : parseVersion t = some v) : versionStr v = t := by
  have hc : versionChars v = t.data := versionChars_parse h
  show (⟨versionChars v⟩ : String) = t
  rw [hc]

/-! ### Grouping and sorting infrastructure -/

theorem flatMap_congr {α β : Type} {l : List α} {f g : α → List β}
    (h : ∀ a ∈ l, f a = g a) : l.flatMap f = l.flatMap g := by
  induction l with
  | nil => rfl
  | cons x xs ih =>
    simp only [List.flatMap_cons]
    rw [h x (by simp), ih (fun a ha => h a (by simp [ha]))]

theorem mem_firstKeysAux {k : String} : ∀ {ks seen : List String},
    k ∈ firstKeysAux ks seen ↔ k ∈ ks ∧ k ∉ seen := by
  intro ks
  induction ks with
  | nil => intro seen; simp [firstKeysAux]
  | cons x xs ih =>
    intro seen
    by_cases hx : x ∈ seen
    · rw [firstKeysAux, if_pos hx, ih]
      constructor
      · rintro ⟨h1, h2⟩
        exact ⟨by simp [h1], h2⟩
      · rintro ⟨h1, h2⟩
        rcases List.mem_cons.mp h1 with rfl | h1
        · exact absurd hx h2
        · exact ⟨h1, h2⟩
    · rw [firstKeysAux, if_neg hx]
      constructor
      · intro h
        rcases List.mem_cons.mp h with rfl | h
        · exact ⟨by simp, hx⟩
        · have := ih.mp h
          exact ⟨by simp [this.1], fun hc => this.2 (by simp [hc])⟩
      · rintro ⟨h1, h2⟩
        rcases List.mem_cons.mp h1 with rfl | h1
        · exact List.mem_cons_self _ _
        · by_cases hk : k = x
          · subst hk; exact List.mem_cons_self _ _
          · exact List.mem_cons_of_mem _ (ih.mpr ⟨h1, by simp [hk, h2]⟩)

theorem firstKeysAux_nodup : ∀ {ks seen : List String},
    (firstKeysAux ks seen).Nodup := by
  intro ks
  induction ks with
  | nil => intro seen; simp [firstKeysAux]
  | cons x xs ih =>
    intro seen
    by_cases hx : x ∈ seen
    · rw [firstKeysAux, if_pos hx]; exact ih
    · rw [firstKeysAux, if_neg hx]
      refine List.nodup_cons.mpr ⟨?_, ih⟩
      intro hc
      exact (mem_firstKeysAux.mp hc).2 (by simp)

theorem mem_firstKeys {k : String} {ks : List String} :
    k ∈ firstKeys ks ↔ k ∈ ks := by
  unfold firstKeys
  rw [mem_firstKeysAux]
  simp

theorem firstKeys_nodup {ks : List String} : (firstKeys ks).Nodup :=
  firstKeysAux_nodup

theorem groupOf_filter_ne {l : List (Version × String)} {k k' : String}
    (h : k' ≠ k) :
    groupOf (l.filter (fun x => !(tagKey x = k))) k' = groupOf l k' := by
  simp only [groupOf]
  rw [List.filter_filter]
  apply List.filter_congr
  intro a _
  by_cases ha : tagKey a = k'
  · simp [ha, h]
  · simp [ha]

theorem flatMap_groupOf_perm : ∀ {ks : List String} {l : List (Version × String)},
    ks.Nodup → (∀ x ∈ l, tagKey x ∈ ks) →
    (ks.flatMap (fun k => groupOf l k)).Perm l := by
  intro ks
  induction ks with
  | nil =>
    intro l _ hcov
    have : l = [] := by
      cases l with
      | nil => rfl
      | cons x xs => exact absurd (hcov x (by simp)) (by simp)
    simp [this]
  | cons k ks ih =>
    intro l hnd hcov
    rw [List.flatMap_cons]
    have hrw : ks.flatMap (fun k' => groupOf l k') =
        ks.flatMap (fun k' => groupOf (l.filter (fun x => !(tagKey x = k))) k') := by
      apply flatMap_congr
      intro k' hk'
      have : k' ≠ k := fun hc => (List.nodup_cons.mp hnd).1 (hc ▸ hk')
      rw [groupOf_filter_ne this]
    rw [hrw]
    have hperm := ih (l := l.filter (fun x => !(tagKey x = k)))
      (List.nodup_cons.mp hnd).2
      (by
        intro x hx
        have hmem := List.mem_filter.mp hx
        have hin := hcov x hmem.1
        rcases List.mem_cons.mp hin with hc | hc
        · rw [hc] at hmem
          simp at hmem
        · exact hc)
    have hfin : (groupOf l k ++ l.filter (fun x => !(tagKey x = k))).Perm l := by
      simp only [groupOf]
      exact List.filter_append_perm _ l
    exact (hperm.append_left (groupOf l k)).trans hfin

theorem groups_perm (l : List (Version × String)) :
    ((firstKeys (l.map tagKey)).flatMap (fun k => groupOf l k)).Perm l := by
  apply flatMap_groupOf_perm firstKeys_nodup
  intro x hx
  exact mem_firstKeys.mpr (List.mem_map_of_mem _ hx)

theorem dateSort_perm (o : String → Option ℕ) (g : List (Version × String)) :
    (dateSort o g).Perm g := by
  have h1 : ((withDates o g).insertionSort dateLe).Perm (withDates o g) :=
    List.perm_insertionSort _ _
  have h2 := h1.map Prod.fst
  have h3 : (withDates o g).map Prod.fst = g := by
    unfold withDates
    rw [List.map_map]
    have h4 : (Prod.fst ∘ fun p : Version × String => (p, getTagCreatedDate o p.2)) = id := rfl
    rw [h4, List.map_id]
  rw [h3] at h2
  exact h2

theorem processGroup_perm (o : String → Option ℕ) (g : List (Version × String)) :
    (processGroup o g).Perm g := by
  unfold processGroup
  by_cases h : 1 < g.length
  · rw [if_pos h]; exact dateSort_perm o g
  · rw [if_neg h]

theorem sortTagsWithDates_perm (o : String → Option ℕ)
    (l : List (Version × String)) : (sortTagsWithDates o l).Perm l := by
  cases l with
  | nil => exact List.Perm.refl _
  | cons x xs =>
    have heq : sortTagsWithDates o (x :: xs) =
        ((firstKeys ((x :: xs).map tagKey)).flatMap
          (fun k => processGroup o (groupOf (x :: xs) k))).insertionSort pairLe := rfl
    rw [heq]
    refine (List.perm_insertionSort _ _).trans ?_
    refine (List.Perm.flatMap_left _ ?_).trans (groups_perm (x :: xs))
    intro k _
    exact processGroup_perm o (groupOf (x :: xs) k)

theorem mem_sortTagsWithDates {o : String → Option ℕ}
    {l : List (Version × String)} {x : Version × String}
    (h : x ∈ sortTagsWithDates o l) : x ∈ l :=
  (sortTagsWithDates_perm o l).mem_iff.mp h

/-! ### Classification facts -/

theorem mem_taggedVersions {tags : List String} {p : Version × String}
    (h : p ∈ taggedVersions tags) :
    parseVersion p.2 = some p.1 ∧ p.2 ∈ tags := by
  simp only [taggedVersions, List.mem_filterMap] at h
  obtain ⟨t, ht, hparse⟩ := h
  cases hv : parseVersion t with
  | none => rw [hv] at hparse; simp at hparse
  | some v =>
    rw [hv] at hparse
    have hp := Option.some.inj hparse
    rw [← hp]
    exact ⟨hv, ht⟩

theorem mem_stableSorted {tags : List String} {o : String → Option ℕ}
    {p : Version × String} (h : p ∈ stableSorted tags o) :
    parseVersion p.2 = some p.1 ∧ isPre p.1 = false ∧ p.2 ∈ tags := by
  have h1 := mem_sortTagsWithDates h
  simp only [stableTags, List.mem_filter] at h1
  have h2 := mem_taggedVersions h1.1
  refine ⟨h2.1, ?_, h2.2⟩
  simpa using h1.2

theorem mem_preSorted {tags : List String} {o : String → Option ℕ}
    {p : Version × String} (h : p ∈ preSorted tags o) :
    parseVersion p.2 = some p.1 ∧ isPre p.1 = true ∧ p.2 ∈ tags := by
  have h1 := mem_sortTagsWithDates h
  simp only [prereleaseTags, List.mem_filter] at h1
  have h2 := mem_taggedVersions h1.1
  exact ⟨h2.1, h1.2, h2.2⟩

theorem map_snd_taggedVersions (tags : List String) :
    (taggedVersions tags).map Prod.snd = versionTags tags := by
  induction tags with
  | nil => rfl
  | cons t ts ih =>
    cases hv : parseVersion t with
    | none =>
      have h1 : taggedVersions (t :: ts) = taggedVersions ts := by
        simp [taggedVersions, List.filterMap_cons, hv]
      have h2 : versionTags (t :: ts) = versionTags ts := by
        simp [versionTags, List.filter_cons, hv]
      rw [h1, h2, ih]
    | some v =>
      have h1 : taggedVersions (t :: ts) = (v, t) :: taggedVersions ts := by
        simp [taggedVersions, List.filterMap_cons, hv]
      have h2 : versionTags (t :: ts) = t :: versionTags ts := by
        simp [versionTags, List.filter_cons, hv]
      rw [h1, h2, List.map_cons, ih]

theorem stable_append_pre_perm (tags : List String) :
    (stableTags tags ++ prereleaseTags tags).Perm (taggedVersions tags) := by
  rw [stableTags, prereleaseTags]
  have := List.filter_append_perm (fun p => !isPre p.1) (taggedVersions tags)
  simpa using this

theorem mergedDesc_perm (S P : List (Version × String)) :
    (mergedDesc S P).Perm (S ++ P) := by
  show (((S ++ P).reverse.insertionSort pairLe).reverse).Perm (S ++ P)
  have h1 : (((S ++ P).reverse.insertionSort pairLe).reverse).Perm
      ((S ++ P).reverse.insertionSort pairLe) := List.reverse_perm _
  have h2 := List.perm_insertionSort pairLe (S ++ P).reverse
  have h3 : ((S ++ P).reverse).Perm (S ++ P) := List.reverse_perm _
  exact (h1.trans h2).trans h3

/-! ### The keep-set -/

theorem fillLoop_subset {keep : ℕ} : ∀ {l : List (Version × String)}
    {s : Finset String}, s ⊆ fillLoop keep l s := by
  intro l
  induction l with
  | nil => intro s; exact Finset.Subset.refl s
  | cons p rest ih =>
    intro s
    rw [fillLoop]
    by_cases h : keep ≤ s.card
    · rw [if_pos h]
    · rw [if_neg h]
      exact (Finset.subset_insert p.2 s).trans ih

theorem mem_fillLoop {keep : ℕ} : ∀ {l : List (Version × String)}
    {s : Finset String} {x : String}, x ∈ fillLoop keep l s →
    x ∈ s ∨ ∃ p ∈ l, p.2 = x := by
  intro l
  induction l with
  | nil => intro s x h; exact Or.inl h
  | cons p rest ih =>
    intro s x h
    rw [fillLoop] at h
    by_cases hc : keep ≤ s.card
    · rw [if_pos hc] at h; exact Or.inl h
    · rw [if_neg hc] at h
      rcases ih h with hs | ⟨q, hq, hqx⟩
      · rcases Finset.mem_insert.mp hs with hx | hx
        · exact Or.inr ⟨p, by simp, hx.symm⟩
        · exact Or.inl hx
      · exact Or.inr ⟨q, by simp [hq], hqx⟩

theorem fillLoop_card_le {keep : ℕ} : ∀ {l : List (Version × String)}
    {s : Finset String}, (fillLoop keep l s).card ≤ max keep s.card := by
  intro l
  induction l with
  | nil => intro s; exact le_max_right _ _
  | cons p rest ih =>
    intro s
    rw [fillLoop]
    by_cases h : keep ≤ s.card
    · rw [if_pos h]; exact le_max_right _ _
    · rw [if_neg h]
      refine ih.trans ?_
      have h1 : (insert p.2 s).card ≤ s.card + 1 := Finset.card_insert_le _ _
      have h2 : s.card + 1 ≤ keep := by omega
      omega

theorem fillLoop_card_ge {keep : ℕ} : ∀ {l : List (Version × String)}
    {s : Finset String},
    min keep (s ∪ (l.map Prod.snd).toFinset).card ≤ (fillLoop keep l s).card := by
  intro l
  induction l with
  | nil =>
    intro s
    simp only [List.map_nil, List.toFinset_nil, Finset.union_empty, fillLoop]
    exact min_le_right _ _
  | cons p rest ih =>
    intro s
    rw [fillLoop]
    by_cases h : keep ≤ s.card
    · rw [if_pos h]
      exact (min_le_left _ _).trans h
    · rw [if_neg h]
      refine le_trans ?_ (ih (s := insert p.2 s))
      have : insert p.2 s ∪ (rest.map Prod.snd).toFinset =
          s ∪ ((p :: rest).map Prod.snd).toFinset := by
        rw [List.map_cons, List.toFinset_cons, Finset.insert_union,
          Finset.union_insert]
      rw [this]

theorem lastStable_mem_floorSet {S P : List (Version × String)}
    {p : Version × String} (h : S.getLast? = some p) : p.2 ∈ floorSet S P := by
  unfold floorSet
  rw [h]
  cases hq : P.getLast? with
  | none => simp
  | some q =>
    by_cases hlt : versionKey p.1 < versionKey q.1
    · simp [hlt]
    · simp [hlt]

theorem mem_floorSet {S P : List (Version × String)} {x : String}
    (h : x ∈ floorSet S P) :
    (∃ p, S.getLast? = some p ∧ p.2 = x) ∨
    (∃ q, P.getLast? = some q ∧ q.2 = x) := by
  unfold floorSet at h
  cases hp : S.getLast? with
  | none =>
    rw [hp] at h
    cases hq : P.getLast? with
    | none => rw [hq] at h; simp at h
    | some q =>
      rw [hq] at h
      simp only [Finset.mem_insert] at h
      rcases h with h | h
      · exact Or.inr ⟨q, rfl, h.symm⟩
      · simp at h
  | some p =>
    rw [hp] at h
    cases hq : P.getLast? with
    | none =>
      rw [hq] at h
      simp only [Finset.mem_singleton] at h
      exact Or.inl ⟨p, rfl, h.symm⟩
    | some q =>
      rw [hq] at h
      have h2 : x ∈ (if versionKey p.1 < versionKey q.1
          then insert q.2 ({p.2} : Finset String) else {p.2}) := h
      by_cases hlt : versionKey p.1 < versionKey q.1
      · rw [if_pos hlt] at h2
        rcases Finset.mem_insert.mp h2 with h3 | h3
        · exact Or.inr ⟨q, rfl, h3.symm⟩
        · exact Or.inl ⟨p, rfl, (Finset.mem_singleton.mp h3).symm⟩
      · rw [if_neg hlt] at h2
        exact Or.inl ⟨p, rfl, (Finset.mem_singleton.mp h2).symm⟩

theorem floorSet_card_le_two (S P : List (Version × String)) :
    (floorSet S P).card ≤ 2 := by
  unfold floorSet
  cases hp : S.getLast? with
  | none =>
    cases hq : P.getLast? with
    | none => simp
    | some q =>
      refine le_trans (Finset.card_insert_le _ _) ?_
      simp
  | some p =>
    cases hq : P.getLast? with
    | none => simp
    | some q =>
      show (if versionKey p.1 < versionKey q.1
          then insert q.2 ({p.2} : Finset String) else {p.2}).card ≤ 2
      by_cases hlt : versionKey p.1 < versionKey q.1
      · rw [if_pos hlt]
        refine le_trans (Finset.card_insert_le _ _) ?_
        simp
      · rw [if_neg hlt]
        simp

/-- Every member of the keep-set names a valid semver tag from the input. -/
theorem mem_keepSet_valid {tags : List String} {o : String → Option ℕ}
    {keep : ℕ} {x : String} (h : x ∈ keepSet tags o keep) :
    ∃ v, parseVersion x = some v ∧ x ∈ tags := by
  unfold keepSet at h
  rcases mem_fillLoop h with hf | ⟨p, hp, hpx⟩
  · rcases mem_floorSet hf with ⟨p, hS, hpx⟩ | ⟨q, hP, hqx⟩
    · have := mem_stableSorted (List.mem_of_mem_getLast? hS)
      exact ⟨p.1, hpx ▸ this.1, hpx ▸ this.2.2⟩
    · have := mem_preSorted (List.mem_of_mem_getLast? hP)
      exact ⟨q.1, hqx ▸ this.1, hqx ▸ this.2.2⟩
  · have hp2 := (mergedDesc_perm _ _).mem_iff.mp hp
    rcases List.mem_append.mp hp2 with hs | hpre
    · have := mem_stableSorted hs
      exact ⟨p.1, hpx ▸ this.1, hpx ▸ this.2.2⟩
    · have := mem_preSorted hpre
      exact ⟨p.1, hpx ▸ this.1, hpx ▸ this.2.2⟩

/-! ### The claims -/

/-- **C1.** For every repository whose stable sequence is non-empty and every
`keep ≥ 1`, the tag with the highest stable semantic version — the last
element of the ascending stable sequence — is in the final keep-set computed
by `manage_image_tags`. -/
theorem keepSet_latest_stable_mem (tags : List String) (o : String → Option ℕ)
    (keep : ℕ) (p : Version × String) (_hkeep : 1 ≤ keep)
    (hS : (stableSorted tags o).getLast? = some p) :
    p.2 ∈ keepSet tags o keep := by
  unfold keepSet
  exact fillLoop_subset (lastStable_mem_floorSet hS)

theorem keepSet_latest_stable_mem_witness :
    (stableSorted ["1.0.0", "1.1.0", "0.1.0-rc.1"] (fun _ => none)).getLast? =
      some (⟨1, 1, 0, none, none⟩, "1.1.0") ∧
    "1.1.0" ∈ keepSet ["1.0.0", "1.1.0", "0.1.0-rc.1"] (fun _ => none) 1 :=
  ⟨by decide,
    keepSet_latest_stable_mem ["1.0.0", "1.1.0", "0.1.0-rc.1"] (fun _ => none) 1
      (⟨1, 1, 0, none, none⟩, "1.1.0") (by decide) (by decide)⟩

/-- **C2.** For a repository with a non-empty pre-release sequence, the newest
pre-release tag receives the floor guarantee (membership in the
`tags_to_keep` floor set) exactly when the stable sequence is empty or its
version is strictly greater than the newest stable version; and when that
condition holds it is in the final keep-set. -/
theorem keepSet_latest_prerelease (tags : List String) (o : String → Option ℕ)
    (keep : ℕ) (q : Version × String) (_hkeep : 1 ≤ keep)
    (hP : (preSorted tags o).getLast? = some q) :
    (q.2 ∈ floorSet (stableSorted tags o) (preSorted tags o) ↔
      (stableSorted tags o = [] ∨
        ∃ p, (stableSorted tags o).getLast? = some p ∧
          versionKey p.1 < versionKey q.1))
    ∧ ((stableSorted tags o = [] ∨
        ∃ p, (stableSorted tags o).getLast? = some p ∧
          versionKey p.1 < versionKey q.1) →
      q.2 ∈ keepSet tags o keep) := by
  have hqmem := mem_preSorted (List.mem_of_mem_getLast? hP)
  have hiff : q.2 ∈ floorSet (stableSorted tags o) (preSorted tags o) ↔
      (stableSorted tags o = [] ∨
        ∃ p, (stableSorted tags o).getLast? = some p ∧
          versionKey p.1 < versionKey q.1) := by
    cases hS : (stableSorted tags o).getLast? with
    | none =>
      have hSnil : stableSorted tags o = [] := List.getLast?_eq_none_iff.mp hS
      have hset : floorSet (stableSorted tags o) (preSorted tags o) =
          insert q.2 ∅ := by
        unfold floorSet
        rw [hP, hS]
      rw [hset]
      simp [hSnil]
    | some p =>
      have hSne : stableSorted tags o ≠ [] := by
        intro hc
        rw [hc] at hS
        simp at hS
      have hpmem := mem_stableSorted (List.mem_of_mem_getLast? hS)
      have hne : q.2 ≠ p.2 := by
        intro hc
        have hsome : some q.1 = some p.1 := by
          rw [← hqmem.1, ← hpmem.1, hc]
        have h1 : q.1 = p.1 := Option.some.inj hsome
        have hbool : (true : Bool) = false := by
          rw [← hqmem.2.1, h1, hpmem.2.1]
        exact Bool.noConfusion hbool
      have hset : floorSet (stableSorted tags o) (preSorted tags o) =
          (if versionKey p.1 < versionKey q.1
            then insert q.2 ({p.2} : Finset String) else {p.2}) := by
        unfold floorSet
        rw [hP, hS]
      rw [hset]
      by_cases hlt : versionKey p.1 < versionKey q.1
      · rw [if_pos hlt]
        constructor
        · intro _
          exact Or.inr ⟨p, rfl, hlt⟩
        · intro _
          exact Finset.mem_insert_self _ _
      · rw [if_neg hlt]
        constructor
        · intro hmem
          exact absurd (Finset.mem_singleton.mp hmem) hne
        · rintro (hc | ⟨p', hp', hlt'⟩)
          · exact absurd hc hSne
          · rw [Option.some_inj] at hp'
            rw [← hp'] at hlt'
            exact absurd hlt' hlt
  refine ⟨hiff, fun hc => ?_⟩
  unfold keepSet
  exact fillLoop_subset (hiff.mpr hc)

theorem keepSet_latest_prerelease_witness :
    (preSorted ["1.0.0", "2.0.0-rc.1"] (fun _ => none)).getLast? =
      some (⟨2, 0, 0, some ['r', 'c', '.', '1'], none⟩, "2.0.0-rc.1") ∧
    ("2.0.0-rc.1" ∈ floorSet (stableSorted ["1.0.0", "2.0.0-rc.1"] (fun _ => none))
        (preSorted ["1.0.0", "2.0.0-rc.1"] (fun _ => none)) ↔
      (stableSorted ["1.0.0", "2.0.0-rc.1"] (fun _ => none) = [] ∨
        ∃ p, (stableSorted ["1.0.0", "2.0.0-rc.1"] (fun _ => none)).getLast? = some p ∧
          versionKey p.1 < versionKey (⟨2, 0, 0, some ['r', 'c', '.', '1'], none⟩ : Version))) :=
  ⟨by decide,
    (keepSet_latest_prerelease ["1.0.0", "2.0.0-rc.1"] (fun _ => none) 1
      (⟨2, 0, 0, some ['r', 'c', '.', '1'], none⟩, "2.0.0-rc.1")
      (by decide) (by decide)).1⟩

/-- **C9.** The retention selector is deterministic: two runs on the same
input tag list, the same creation-time answers and the same `keep` produce
the same keep-set. -/
theorem keepSet_deterministic (tags₁ tags₂ : List String)
    (o₁ o₂ : String → Option ℕ) (keep₁ keep₂ : ℕ)
    (ht : tags₁ = tags₂) (ho : ∀ t, o₁ t = o₂ t) (hk : keep₁ = keep₂) :
    keepSet tags₁ o₁ keep₁ = keepSet tags₂ o₂ keep₂ := by
  subst ht
  subst hk
  rw [show o₁ = o₂ from funext ho]

theorem keepSet_deterministic_witness :
    keepSet ["1.0.0", "2.0.0"] (fun _ => none) 1 =
      keepSet ["1.0.0", "2.0.0"] (fun _ => none) 1 :=
  keepSet_deterministic ["1.0.0", "2.0.0"] ["1.0.0", "2.0.0"]
    (fun _ => none) (fun _ => none) 1 1 rfl (fun _ => rfl) rfl

/-- **C8.** A tag that fails semver validation is never kept and never
deleted; every valid tag is in exactly one of the keep-set and the delete
list; and the delete list is exactly the valid tags minus the keep-set, in
input order. -/
theorem keepSet_delete_partition (tags : List String) (o : String → Option ℕ)
    (keep : ℕ) :
    (∀ t : String, parseVersion t = none →
      t ∉ keepSet tags o keep ∧ t ∉ tagsToDelete tags o keep)
    ∧ (∀ t ∈ tags, (parseVersion t).isSome →
        (t ∈ keepSet tags o keep ↔ t ∉ tagsToDelete tags o keep))
    ∧ tagsToDelete tags o keep =
        (versionTags tags).filter (fun t => t ∉ keepSet tags o keep) := by
  refine ⟨fun t hbad => ⟨?_, ?_⟩, fun t ht hval => ?_, rfl⟩
  · intro hc
    obtain ⟨v, hv, _⟩ := mem_keepSet_valid hc
    rw [hbad] at hv
    exact Option.noConfusion hv
  · intro hc
    unfold tagsToDelete at hc
    have := List.mem_filter.mp hc
    have hmem := this.1
    unfold versionTags at hmem
    have := (List.mem_filter.mp hmem).2
    rw [hbad] at this
    simp at this
  · have hvt : t ∈ versionTags tags := by
      unfold versionTags
      exact List.mem_filter.mpr ⟨ht, by simpa using hval⟩
    unfold tagsToDelete
    constructor
    · intro hk hc
      have := (List.mem_filter.mp hc).2
      simp only [decide_not, Bool.not_eq_true', decide_eq_false_iff_not] at this
      exact this hk
    · intro hnd
      by_contra hk
      exact hnd (List.mem_filter.mpr ⟨hvt, by simpa using hk⟩)

theorem keepSet_delete_partition_witness :
    ("latest" ∈ ["latest", "1.0.0", "2.0.0"] → True)
    ∧ "latest" ∉ keepSet ["latest", "1.0.0", "2.0.0"] (fun _ => none) 1
    ∧ "latest" ∉ tagsToDelete ["latest", "1.0.0", "2.0.0"] (fun _ => none) 1
    ∧ ("2.0.0" ∈ keepSet ["latest", "1.0.0", "2.0.0"] (fun _ => none) 1 ↔
        "2.0.0" ∉ tagsToDelete ["latest", "1.0.0", "2.0.0"] (fun _ => none) 1) :=
  ⟨fun _ => trivial,
    ((keepSet_delete_partition ["latest", "1.0.0", "2.0.0"] (fun _ => none) 1).1
      "latest" (by decide)).1,
    ((keepSet_delete_partition ["latest", "1.0.0", "2.0.0"] (fun _ => none) 1).1
      "latest" (by decide)).2,
    (keepSet_delete_partition ["latest", "1.0.0", "2.0.0"] (fun _ => none) 1).2.1
      "2.0.0" (by decide) (by decide)⟩

theorem mergedDesc_sorted (S P : List (Version × String)) :
    (mergedDesc S P).Pairwise (fun a b => pairLe b a) := by
  show (((S ++ P).reverse.insertionSort pairLe).reverse).Pairwise _
  rw [List.pairwise_reverse]
  exact List.sorted_insertionSort pairLe _

theorem fillLoop_excluded {keep : ℕ} : ∀ {l : List (Version × String)}
    {s : Finset String} {e : Version × String},
    l.Pairwise (fun a b => pairLe b a) → e ∈ l → e.2 ∉ fillLoop keep l s →
    ∀ x ∈ fillLoop keep l s, x ∉ s → ∃ a ∈ l, a.2 = x ∧ pairLe e a := by
  intro l
  induction l with
  | nil =>
    intro s e _ he
    simp at he
  | cons p rest ih =>
    intro s e hsort he hex x hx hxs
    rw [fillLoop] at hex hx
    by_cases hc : keep ≤ s.card
    · rw [if_pos hc] at hx
      exact absurd hx hxs
    · rw [if_neg hc] at hex hx
      rcases List.mem_cons.mp he with rfl | he2
      · exact absurd (fillLoop_subset (Finset.mem_insert_self _ _)) hex
      · by_cases hxp : x = p.2
        · refine ⟨p, by simp, hxp.symm, ?_⟩
          exact (List.pairwise_cons.mp hsort).1 e he2
        · have hxs2 : x ∉ insert p.2 s := by
            intro hc2
            rcases Finset.mem_insert.mp hc2 with h | h
            · exact hxp h
            · exact hxs h
          obtain ⟨a, ha, hax, hle⟩ :=
            ih (List.pairwise_cons.mp hsort).2 he2 hex x hx hxs2
          exact ⟨a, by simp [ha], hax, hle⟩

/-- The merged descending sequence enumerates exactly the valid tags. -/
theorem mergedDesc_map_snd_perm (tags : List String) (o : String → Option ℕ) :
    ((mergedDesc (stableSorted tags o) (preSorted tags o)).map Prod.snd).Perm
      (versionTags tags) := by
  have h1 := (mergedDesc_perm (stableSorted tags o) (preSorted tags o)).map
    (f := Prod.snd)
  have h2 : ((stableSorted tags o ++ preSorted tags o).map Prod.snd).Perm
      ((taggedVersions tags).map Prod.snd) := by
    have h3 := ((sortTagsWithDates_perm o (stableTags tags)).append
      (sortTagsWithDates_perm o (prereleaseTags tags))).trans
      (stable_append_pre_perm tags)
    exact h3.map Prod.snd
  rw [map_snd_taggedVersions] at h2
  exact h1.trans h2

/-- **C3 (counterexample).** The bound
`|KeepSet| ≥ min(keep, number of valid-version tags)` fails for an input tag
list that repeats a tag name: with `["1.0.0", "1.0.0"]` and `keep = 2` the
keep-set is the singleton `{"1.0.0"}` while two valid-version tags were
listed. -/
theorem keepSet_card_duplicates_counterexample :
    ¬ (min 2 (versionTags ["1.0.0", "1.0.0"]).length ≤
        (keepSet ["1.0.0", "1.0.0"] (fun _ => none) 2).card) := by
  decide

/-- **C3 (amended).** For an input tag list without repeated tag names (the
data model: tags are unique within one repository) and any `keep ≥ 1`:
the keep-set has at least `min(keep, number of valid tags)` members; its size
exceeds `keep` only via the floor set, which has at most two members; and a
valid tag left out of the keep-set is older (never strictly newer) than every
tag the budget-fill loop added. -/
theorem keepSet_card_and_budget (tags : List String) (o : String → Option ℕ)
    (keep : ℕ) (_hkeep : 1 ≤ keep) (hnd : tags.Nodup) :
    min keep (versionTags tags).length ≤ (keepSet tags o keep).card
    ∧ (keepSet tags o keep).card ≤
        max keep (floorSet (stableSorted tags o) (preSorted tags o)).card
    ∧ (floorSet (stableSorted tags o) (preSorted tags o)).card ≤ 2
    ∧ ∀ e ∈ mergedDesc (stableSorted tags o) (preSorted tags o),
        e.2 ∉ keepSet tags o keep →
        ∀ x ∈ keepSet tags o keep,
          x ∉ floorSet (stableSorted tags o) (preSorted tags o) →
          ∃ a ∈ mergedDesc (stableSorted tags o) (preSorted tags o),
            a.2 = x ∧ versionKey e.1 ≤ versionKey a.1 := by
  refine ⟨?_, ?_, floorSet_card_le_two _ _, ?_⟩
  · have hsub : floorSet (stableSorted tags o) (preSorted tags o) ⊆
        ((mergedDesc (stableSorted tags o) (preSorted tags o)).map
          Prod.snd).toFinset := by
      intro x hx
      rw [List.mem_toFinset]
      rcases mem_floorSet hx with ⟨p, hS, hpx⟩ | ⟨q, hQ, hqx⟩
      · have hmem : p ∈ mergedDesc (stableSorted tags o) (preSorted tags o) :=
          (mergedDesc_perm _ _).mem_iff.mpr
            (List.mem_append.mpr (Or.inl (List.mem_of_mem_getLast? hS)))
        exact hpx ▸ List.mem_map_of_mem Prod.snd hmem
      · have hmem : q ∈ mergedDesc (stableSorted tags o) (preSorted tags o) :=
          (mergedDesc_perm _ _).mem_iff.mpr
            (List.mem_append.mpr (Or.inr (List.mem_of_mem_getLast? hQ)))
        exact hqx ▸ List.mem_map_of_mem Prod.snd hmem
    have hge := @fillLoop_card_ge keep
      (mergedDesc (stableSorted tags o) (preSorted tags o))
      (floorSet (stableSorted tags o) (preSorted tags o))
    rw [Finset.union_eq_right.mpr hsub] at hge
    have hcard : ((mergedDesc (stableSorted tags o) (preSorted tags o)).map
        Prod.snd).toFinset.card = (versionTags tags).length := by
      rw [List.toFinset_eq_of_perm _ _ (mergedDesc_map_snd_perm tags o)]
      exact List.toFinset_card_of_nodup (hnd.filter _)
    rw [hcard] at hge
    exact hge
  · exact fillLoop_card_le
  · intro e he hex x hx hxf
    exact fillLoop_excluded (mergedDesc_sorted _ _) he hex x hx hxf

theorem keepSet_card_and_budget_witness :
    min 2 (versionTags ["1.0.0", "2.0.0", "3.0.0"]).length ≤
      (keepSet ["1.0.0", "2.0.0", "3.0.0"] (fun _ => none) 2).card
    ∧ (keepSet ["1.0.0", "2.0.0", "3.0.0"] (fun _ => none) 2).card ≤
        max 2 (floorSet (stableSorted ["1.0.0", "2.0.0", "3.0.0"] (fun _ => none))
          (preSorted ["1.0.0", "2.0.0", "3.0.0"] (fun _ => none))).card :=
  ⟨(keepSet_card_and_budget ["1.0.0", "2.0.0", "3.0.0"] (fun _ => none) 2
      (by decide) (by decide)).1,
   (keepSet_card_and_budget ["1.0.0", "2.0.0", "3.0.0"] (fun _ => none) 2
      (by decide) (by decide)).2.1⟩

/-! ### Tie-break resolver and the singleton-group refinement -/

theorem firstKeysAux_all_seen : ∀ {ks seen : List String},
    (∀ k ∈ ks, k ∈ seen) → firstKeysAux ks seen = [] := by
  intro ks
  induction ks with
  | nil => intro seen _; rfl
  | cons k ks ih =>
    intro seen h
    rw [firstKeysAux, if_pos (h k (by simp))]
    exact ih (fun x hx => h x (by simp [hx]))

theorem firstKeys_constant {c : String} : ∀ {ks : List String}, ks ≠ [] →
    (∀ k ∈ ks, k = c) → firstKeys ks = [c] := by
  intro ks
  induction ks with
  | nil => intro h _; exact absurd rfl h
  | cons k ks _ =>
    intro _ hall
    unfold firstKeys
    rw [firstKeysAux, if_neg (by simp)]
    have hk : k = c := hall k (by simp)
    subst hk
    rw [firstKeysAux_all_seen]
    intro x hx
    simp [hall x (by simp [hx])]

theorem firstKeysAux_of_disjoint : ∀ {ks seen : List String}, ks.Nodup →
    (∀ k ∈ ks, k ∉ seen) → firstKeysAux ks seen = ks := by
  intro ks
  induction ks with
  | nil => intro seen _ _; rfl
  | cons k ks ih =>
    intro seen hnd hdisj
    rw [firstKeysAux, if_neg (hdisj k (by simp))]
    rw [ih (List.nodup_cons.mp hnd).2]
    intro x hx
    simp only [List.mem_cons]
    rintro (rfl | hc)
    · exact (List.nodup_cons.mp hnd).1 hx
    · exact hdisj x (by simp [hx]) hc

theorem firstKeys_of_nodup {ks : List String} (h : ks.Nodup) :
    firstKeys ks = ks :=
  firstKeysAux_of_disjoint h (fun _ _ => List.not_mem_nil _)

theorem length_le_one_of_allEq_nodup {k : String} : ∀ {ks : List String},
    ks.Nodup → (∀ x ∈ ks, x = k) → ks.length ≤ 1 := by
  intro ks
  match ks with
  | [] => intro _ _; simp
  | [x] => intro _ _; simp
  | x :: y :: r =>
    intro hnd hall
    exfalso
    have hx : x = k := hall x (by simp)
    have hy : y = k := hall y (by simp)
    have : x ∉ y :: r := (List.nodup_cons.mp hnd).1
    exact this (by simp [hx, hy])

theorem groupOf_length_le_one {l : List (Version × String)} {k : String}
    (h : (l.map tagKey).Nodup) : (groupOf l k).length ≤ 1 := by
  have hsub : ((groupOf l k).map tagKey).Sublist (l.map tagKey) :=
    (List.filter_sublist _).map _
  have hnd2 : ((groupOf l k).map tagKey).Nodup := h.sublist hsub
  have hall : ∀ x ∈ (groupOf l k).map tagKey, x = k := by
    intro x hx
    obtain ⟨q, hq, rfl⟩ := List.mem_map.mp hx
    have := List.mem_filter.mp hq
    simpa using this.2
  have := length_le_one_of_allEq_nodup hnd2 hall
  simpa using this

theorem singleton_groups : ∀ {l : List (Version × String)},
    (l.map tagKey).Nodup →
    (l.map tagKey).flatMap (fun k => groupOf l k) = l := by
  intro l
  induction l with
  | nil => intro _; rfl
  | cons p rest ih =>
    intro hnd
    rw [List.map_cons, List.flatMap_cons]
    have hnotin : tagKey p ∉ rest.map tagKey := (List.nodup_cons.mp hnd).1
    have hgp : groupOf (p :: rest) (tagKey p) = [p] := by
      unfold groupOf
      rw [List.filter_cons, if_pos (by simp)]
      have hnil : rest.filter (fun q => tagKey q = tagKey p) = [] := by
        rw [List.filter_eq_nil_iff]
        intro q hq
        simp only [decide_eq_true_eq]
        intro hc
        exact hnotin (hc ▸ List.mem_map_of_mem tagKey hq)
      rw [hnil]
    have hrest : ∀ k ∈ rest.map tagKey,
        groupOf (p :: rest) k = groupOf rest k := by
      intro k hk
      unfold groupOf
      rw [List.filter_cons, if_neg]
      simp only [decide_eq_true_eq]
      intro hc
      exact hnotin (hc ▸ hk)
    rw [hgp, flatMap_congr hrest, ih (List.nodup_cons.mp hnd).2]
    rfl

theorem flatMap_nil_of_forall {α β : Type} : ∀ {l : List α} {f : α → List β},
    (∀ a ∈ l, f a = []) → l.flatMap f = [] := by
  intro l
  induction l with
  | nil => intro f _; rfl
  | cons x xs ih =>
    intro f h
    rw [List.flatMap_cons, h x (by simp), List.nil_append]
    exact ih (fun a ha => h a (by simp [ha]))

/-- **C4.** The tie-break resolver: a multi-member group of tags sharing one
parsed version is returned ordered oldest-to-newest by creation date; the
creation-date oracle is consulted only for members of multi-member groups; a
failed or empty fetch yields the `datetime.min` sentinel, which is below every
timestamp; and the output is always ordered by version precedence, so tags
with different versions are never reordered by timestamps. -/
theorem sortTagsWithDates_tie_break (o o2 : String → Option ℕ)
    (v : Version) (l : List (Version × String)) :
    ((∀ p ∈ l, p.1 = v) → 1 < l.length →
      (sortTagsWithDates o l).Perm l
      ∧ (sortTagsWithDates o l).Pairwise
          (fun a b => getTagCreatedDate o a.2 ≤ getTagCreatedDate o b.2))
    ∧ ((∀ t ∈ fetchedTags l, o t = o2 t) →
        sortTagsWithDates o l = sortTagsWithDates o2 l)
    ∧ (∀ t, o t = none → getTagCreatedDate o t = datetimeMin)
    ∧ (∀ d : ℕ, datetimeMin ≤ d)
    ∧ (sortTagsWithDates o l).Pairwise pairLe := by
  refine ⟨?_, ?_, ?_, fun d => Nat.zero_le d, ?_⟩
  · intro hall hlen
    cases l with
    | nil => simp at hlen
    | cons p rest =>
      have hkeys : ∀ k ∈ (p :: rest).map tagKey, k = versionStr v := by
        intro k hk
        obtain ⟨q, hq, rfl⟩ := List.mem_map.mp hk
        unfold tagKey
        rw [hall q hq]
      have hfk : firstKeys ((p :: rest).map tagKey) = [versionStr v] :=
        firstKeys_constant (by simp) hkeys
      have hgrp : groupOf (p :: rest) (versionStr v) = p :: rest := by
        unfold groupOf
        apply List.filter_eq_self.mpr
        intro q hq
        simp only [decide_eq_true_eq]
        unfold tagKey
        rw [hall q hq]
      have heq : sortTagsWithDates o (p :: rest) =
          ((firstKeys ((p :: rest).map tagKey)).flatMap
            (fun k => processGroup o (groupOf (p :: rest) k))).insertionSort
            pairLe := rfl
      rw [heq, hfk] at *
      have hflat : ([versionStr v].flatMap
          (fun k => processGroup o (groupOf (p :: rest) k))) =
          processGroup o (p :: rest) := by
        rw [List.flatMap_cons, hgrp]
        simp
      rw [hflat]
      have hproc : processGroup o (p :: rest) = dateSort o (p :: rest) := by
        unfold processGroup
        rw [if_pos hlen]
      rw [hproc]
      have hmemv : ∀ a ∈ dateSort o (p :: rest), a.1 = v := by
        intro a ha
        exact hall a ((dateSort_perm o (p :: rest)).mem_iff.mp ha)
      have hsorted : (dateSort o (p :: rest)).Pairwise pairLe := by
        apply List.pairwise_of_forall_mem_list
        intro a ha b hb
        unfold pairLe
        rw [hmemv a ha, hmemv b hb]
      rw [List.Sorted.insertionSort_eq hsorted]
      constructor
      · exact dateSort_perm o (p :: rest)
      · unfold dateSort
        rw [List.pairwise_map]
        have hdates := List.sorted_insertionSort dateLe (withDates o (p :: rest))
        refine List.Pairwise.imp_of_mem ?_ hdates
        intro a b ha hb hab
        have hmem : ∀ x ∈ (withDates o (p :: rest)).insertionSort dateLe,
            x.2 = getTagCreatedDate o x.1.2 := by
          intro x hx
          have := (List.perm_insertionSort dateLe _).mem_iff.mp hx
          unfold withDates at this
          obtain ⟨q, _, rfl⟩ := List.mem_map.mp this
          rfl
        have h1 := hmem a ha
        have h2 := hmem b hb
        unfold dateLe at hab
        rw [h1, h2] at hab
        exact hab
  · intro hagree
    cases l with
    | nil => rfl
    | cons p rest =>
      show ((firstKeys ((p :: rest).map tagKey)).flatMap
          (fun k => processGroup o (groupOf (p :: rest) k))).insertionSort pairLe =
        ((firstKeys ((p :: rest).map tagKey)).flatMap
          (fun k => processGroup o2 (groupOf (p :: rest) k))).insertionSort pairLe
      congr 1
      apply flatMap_congr
      intro k hk
      unfold processGroup
      by_cases hlen : 1 < (groupOf (p :: rest) k).length
      · rw [if_pos hlen, if_pos hlen]
        unfold dateSort
        have hwd : withDates o (groupOf (p :: rest) k) =
            withDates o2 (groupOf (p :: rest) k) := by
          unfold withDates
          apply List.map_congr_left
          intro q hq
          have hfetched : q.2 ∈ fetchedTags (p :: rest) := by
            unfold fetchedTags
            apply List.mem_flatMap.mpr
            exact ⟨k, hk, by rw [if_pos hlen]; exact List.mem_map_of_mem _ hq⟩
          unfold getTagCreatedDate
          rw [hagree q.2 hfetched]
        rw [hwd]
      · rw [if_neg hlen, if_neg hlen]
  · intro t h
    unfold getTagCreatedDate
    rw [h]
  · cases l with
    | nil => exact List.Pairwise.nil
    | cons p rest => exact List.sorted_insertionSort pairLe _

theorem sortTagsWithDates_tie_break_witness :
    (sortTagsWithDates
        (fun t => if t = "newer" then some 10 else some 5)
        [(⟨1, 0, 0, none, none⟩, "newer"), (⟨1, 0, 0, none, none⟩, "older")]).Perm
      [(⟨1, 0, 0, none, none⟩, "newer"), (⟨1, 0, 0, none, none⟩, "older")]
    ∧ (sortTagsWithDates
        (fun t => if t = "newer" then some 10 else some 5)
        [(⟨1, 0, 0, none, none⟩, "newer"), (⟨1, 0, 0, none, none⟩, "older")]).Pairwise
        (fun a b => getTagCreatedDate (fun t => if t = "newer" then some 10 else some 5) a.2 ≤
          getTagCreatedDate (fun t => if t = "newer" then some 10 else some 5) b.2) :=
  (sortTagsWithDates_tie_break
      (fun t => if t = "newer" then some 10 else some 5)
      (fun t => if t = "newer" then some 10 else some 5)
      ⟨1, 0, 0, none, none⟩
      [(⟨1, 0, 0, none, none⟩, "newer"), (⟨1, 0, 0, none, none⟩, "older")]).1
    (by decide) (by decide)

/-- **C10.** On pairwise-distinct valid tags, the grouping key
`str(parse(tag))` is the tag itself, every group is a singleton, the
creation-date oracle is never consulted, and `sort_tags_with_dates` is exactly
a stable sort of the input by version precedence. -/
theorem sortTagsWithDates_distinct_tags (o o2 : String → Option ℕ)
    (l : List (Version × String))
    (hparse : ∀ p ∈ l, parseVersion p.2 = some p.1)
    (hnd : (l.map Prod.snd).Nodup) :
    (∀ p ∈ l, versionStr p.1 = p.2)
    ∧ fetchedTags l = []
    ∧ sortTagsWithDates o l = sortedByPrecedence l
    ∧ sortTagsWithDates o l = sortTagsWithDates o2 l := by
  have hkey : ∀ p ∈ l, tagKey p = p.2 := by
    intro p hp
    unfold tagKey
    exact versionStr_parseVersion (hparse p hp)
  have hkeyeq : l.map tagKey = l.map Prod.snd := List.map_congr_left hkey
  have hndk : (l.map tagKey).Nodup := by rw [hkeyeq]; exact hnd
  have hfetch : fetchedTags l = [] := by
    unfold fetchedTags
    apply flatMap_nil_of_forall
    intro k _
    rw [if_neg]
    have := groupOf_length_le_one (k := k) hndk
    omega
  have hgroups : (firstKeys (l.map tagKey)).flatMap
      (fun k => processGroup o (groupOf l k)) = l := by
    rw [firstKeys_of_nodup hndk]
    have hproc : ∀ k ∈ l.map tagKey,
        processGroup o (groupOf l k) = groupOf l k := by
      intro k _
      unfold processGroup
      rw [if_neg]
      have := groupOf_length_le_one (k := k) hndk
      omega
    rw [flatMap_congr hproc]
    exact singleton_groups hndk
  have hgroups2 : (firstKeys (l.map tagKey)).flatMap
      (fun k => processGroup o2 (groupOf l k)) = l := by
    rw [firstKeys_of_nodup hndk]
    have hproc : ∀ k ∈ l.map tagKey,
        processGroup o2 (groupOf l k) = groupOf l k := by
      intro k _
      unfold processGroup
      rw [if_neg]
      have := groupOf_length_le_one (k := k) hndk
      omega
    rw [flatMap_congr hproc]
    exact singleton_groups hndk
  refine ⟨fun p hp => versionStr_parseVersion (hparse p hp), hfetch, ?_, ?_⟩
  · cases l with
    | nil => rfl
    | cons p rest =>
      show ((firstKeys ((p :: rest).map tagKey)).flatMap
          (fun k => processGroup o (groupOf (p :: rest) k))).insertionSort pairLe =
        sortedByPrecedence (p :: rest)
      rw [hgroups]
      rfl
  · cases l with
    | nil => rfl
    | cons p rest =>
      show ((firstKeys ((p :: rest).map tagKey)).flatMap
          (fun k => processGroup o (groupOf (p :: rest) k))).insertionSort pairLe =
        ((firstKeys ((p :: rest).map tagKey)).flatMap
          (fun k => processGroup o2 (groupOf (p :: rest) k))).insertionSort pairLe
      rw [hgroups, hgroups2]

theorem sortTagsWithDates_distinct_tags_witness :
    fetchedTags [((⟨1, 0, 0, none, none⟩ : Version), "1.0.0"),
        ((⟨1, 0, 0, none, some ['x']⟩ : Version), "1.0.0+x")] = []
    ∧ sortTagsWithDates (fun _ => none)
        [((⟨1, 0, 0, none, none⟩ : Version), "1.0.0"),
          ((⟨1, 0, 0, none, some ['x']⟩ : Version), "1.0.0+x")] =
      sortedByPrecedence
        [((⟨1, 0, 0, none, none⟩ : Version), "1.0.0"),
          ((⟨1, 0, 0, none, some ['x']⟩ : Version), "1.0.0+x")] :=
  ⟨(sortTagsWithDates_distinct_tags (fun _ => none) (fun _ => none)
      [((⟨1, 0, 0, none, none⟩ : Version), "1.0.0"),
        ((⟨1, 0, 0, none, some ['x']⟩ : Version), "1.0.0+x")]
      (by decide) (by decide)).2.1,
   (sortTagsWithDates_distinct_tags (fun _ => none) (fun _ => none)
      [((⟨1, 0, 0, none, none⟩ : Version), "1.0.0"),
        ((⟨1, 0, 0, none, some ['x']⟩ : Version), "1.0.0+x")]
      (by decide) (by decide)).2.2.1⟩

/-! ### Error handling: configuration guard, deletion dispatcher, iterator -/

/-- **C7.** A non-positive `keep` raises `ValueError` before any collaborator
call — the call trace is empty, so no tag listing, no timestamp fetch and no
deletion happens — while for `keep ≥ 1` the `ValueError` is never raised. -/
theorem manageImageTags_keep_guard (env : RegEnv) (keep : ℤ) :
    (keep ≤ 0 →
      manageImageTags env keep = (.error .valueError, []))
    ∧ (1 ≤ keep →
      (manageImageTags env keep).1 ≠ .error .valueError) := by
  constructor
  · intro h
    unfold manageImageTags
    rw [if_pos h]
  · intro h
    unfold manageImageTags
    rw [if_neg (by omega)]
    cases env.tagList with
    | error e => simp
    | ok tl =>
      cases tl with
      | none => simp
      | some tags =>
        by_cases hv : versionTags tags = []
        · simp [hv]
        · simp only [hv, if_false]
          cases hdb : (deleteBatch env (tagsToDelete tags env.created keep.toNat)).2 with
          | none => simp [hdb]
          | some ab => simp [hdb]

theorem manageImageTags_keep_guard_witness :
    manageImageTags
      ⟨.ok (some ["1.0.0"]), fun _ => none, fun _ => some "sha", fun _ => 202⟩
      (-1) = (.error .valueError, [])
    ∧ (manageImageTags
        ⟨.ok (some ["1.0.0"]), fun _ => none, fun _ => some "sha", fun _ => 202⟩
        4).1 ≠ .error .valueError :=
  ⟨(manageImageTags_keep_guard
      ⟨.ok (some ["1.0.0"]), fun _ => none, fun _ => some "sha", fun _ => 202⟩
      (-1)).1 (by decide),
   (manageImageTags_keep_guard
      ⟨.ok (some ["1.0.0"]), fun _ => none, fun _ => some "sha", fun _ => 202⟩
      4).2 (by decide)⟩

/-- **C6 (counterexample).** Deletions are not independent: with a batch of
two tags where the first tag's digest resolution fails (an HTTP error on the
`HEAD` request), `delete_tag` raises, the batch aborts, and the second tag is
never attempted — no outcome is recorded for it. -/
theorem deleteBatch_abort_counterexample :
    (deleteBatch
        ⟨.ok none, fun _ => none,
          fun t => if t = "0.1.0" then none else some "sha", fun _ => 202⟩
        ["0.1.0", "0.2.0"]).2 = some ("0.1.0", ["0.2.0"])
    ∧ ∀ r ∈ (deleteBatch
        ⟨.ok none, fun _ => none,
          fun t => if t = "0.1.0" then none else some "sha", fun _ => 202⟩
        ["0.1.0", "0.2.0"]).1, r.1 ≠ "0.2.0" := by
  decide

/-- **C6 (amended).** Each tag whose digest resolution succeeds yields
`Deleted` (status 202) or `Failed(status ≠ 202)`, and a failed `DELETE`
request does not abort the batch: when every tag in the list resolves, all
tags are attempted in order and the batch completes.  A digest-resolution
failure, however, raises and aborts the batch: the tags after the failing one
are left unattempted. -/
theorem deleteBatch_outcomes (env : RegEnv) :
    (∀ l : List String, (∀ t ∈ l, (env.digest t).isSome) →
      ((deleteBatch env l).1.map Prod.fst = l
        ∧ (deleteBatch env l).2 = none
        ∧ ∀ r ∈ (deleteBatch env l).1,
            r.2 = DelOutcome.deleted ∨
            ∃ s, s ≠ 202 ∧ r.2 = DelOutcome.failed s))
    ∧ (∀ pre t post, (∀ u ∈ pre, (env.digest u).isSome) →
        env.digest t = none →
        deleteBatch env (pre ++ t :: post) =
          ((deleteBatch env pre).1, some (t, post))) := by
  constructor
  · intro l
    induction l with
    | nil =>
      intro _
      refine ⟨rfl, rfl, ?_⟩
      intro r hr
      simp [deleteBatch] at hr
    | cons t rest ih =>
      intro hall
      obtain ⟨d, hd⟩ := Option.isSome_iff_exists.mp (hall t (by simp))
      have hdel : deleteTag env t =
          .ok (if env.delStatus d = 202 then .deleted
            else .failed (env.delStatus d)) := by
        unfold deleteTag
        rw [hd]
      have heq : deleteBatch env (t :: rest) =
          ((t, if env.delStatus d = 202 then DelOutcome.deleted
              else DelOutcome.failed (env.delStatus d)) :: (deleteBatch env rest).1,
            (deleteBatch env rest).2) := by
        rw [deleteBatch, hdel]
      obtain ⟨ih1, ih2, ih3⟩ := ih (fun u hu => hall u (by simp [hu]))
      rw [heq]
      refine ⟨by simp [ih1], by simp [ih2], ?_⟩
      intro r hr
      rcases List.mem_cons.mp hr with rfl | hr2
      · by_cases hs : env.delStatus d = 202
        · left; simp [hs]
        · right; exact ⟨env.delStatus d, hs, by simp [hs]⟩
      · exact ih3 r hr2
  · intro pre
    induction pre with
    | nil =>
      intro t post _ hnone
      have hdel : deleteTag env t = .error () := by
        unfold deleteTag
        rw [hnone]
      show deleteBatch env (t :: post) =
        (([] : List (String × DelOutcome)), some (t, post))
      rw [deleteBatch, hdel]
    | cons u pre ih =>
      intro t post hall hnone
      obtain ⟨d, hd⟩ := Option.isSome_iff_exists.mp (hall u (by simp))
      have hdel : deleteTag env u =
          .ok (if env.delStatus d = 202 then .deleted
            else .failed (env.delStatus d)) := by
        unfold deleteTag
        rw [hd]
      have h1 : deleteBatch env ((u :: pre) ++ t :: post) =
          ((u, if env.delStatus d = 202 then DelOutcome.deleted
              else DelOutcome.failed (env.delStatus d)) ::
            (deleteBatch env (pre ++ t :: post)).1,
            (deleteBatch env (pre ++ t :: post)).2) := by
        show deleteBatch env (u :: (pre ++ t :: post)) = _
        rw [deleteBatch, hdel]
      have h2 : deleteBatch env (u :: pre) =
          ((u, if env.delStatus d = 202 then DelOutcome.deleted
              else DelOutcome.failed (env.delStatus d)) :: (deleteBatch env pre).1,
            (deleteBatch env pre).2) := by
        rw [deleteBatch, hdel]
      rw [h1, ih t post (fun v hv => hall v (by simp [hv])) hnone, h2]

theorem deleteBatch_outcomes_witness :
    (deleteBatch
        ⟨.ok none, fun _ => none, fun _ => some "sha",
          fun t => if t = "sha" then 500 else 202⟩
        ["1.0.0", "2.0.0"]).1.map Prod.fst = ["1.0.0", "2.0.0"]
    ∧ (deleteBatch
        ⟨.ok none, fun _ => none, fun _ => some "sha",
          fun t => if t = "sha" then 500 else 202⟩
        ["1.0.0", "2.0.0"]).2 = none :=
  ⟨((deleteBatch_outcomes
      ⟨.ok none, fun _ => none, fun _ => some "sha",
        fun t => if t = "sha" then 500 else 202⟩).1
      ["1.0.0", "2.0.0"] (by decide)).1,
   ((deleteBatch_outcomes
      ⟨.ok none, fun _ => none, fun _ => some "sha",
        fun t => if t = "sha" then 500 else 202⟩).1
      ["1.0.0", "2.0.0"] (by decide)).2.1⟩

/-- **C5 (counterexample).** Repository processing is not isolated: with two
repositories where the first repository's tag listing raises, the exception
propagates out of the loop and `manage_image_tags` is never invoked for the
second repository. -/
theorem truncateAllImages_abort_counterexample :
    truncateAllImages
      (fun r => if r = "app-a"
        then ⟨.error (), fun _ => none, fun _ => none, fun _ => 202⟩
        else ⟨.ok (some ["1.0.0"]), fun _ => none, fun _ => some "sha", fun _ => 202⟩)
      4 ["app-a", "app-b"] = (["app-a"], true)
    ∧ "app-b" ∉ (truncateAllImages
      (fun r => if r = "app-a"
        then ⟨.error (), fun _ => none, fun _ => none, fun _ => 202⟩
        else ⟨.ok (some ["1.0.0"]), fun _ => none, fun _ => some "sha", fun _ => 202⟩)
      4 ["app-a", "app-b"]).1 := by
  decide

/-- **C5 (amended).** `truncate_all_images` wraps no exception handler around
the loop body: repositories before the first failing one are processed, the
failing repository is attempted, and the exception aborts the loop so that no
repository after it is processed. -/
theorem truncateAllImages_abort (envOf : String → RegEnv) (keep : ℤ)
    (pre : List String) (r : String) (post : List String)
    (hpre : ∀ u ∈ pre, ∀ e, (manageImageTags (envOf u) keep).1 ≠ .error e)
    (hr : ∃ e, (manageImageTags (envOf r) keep).1 = .error e) :
    truncateAllImages envOf keep (pre ++ r :: post) = (pre ++ [r], true) := by
  induction pre with
  | nil =>
    obtain ⟨e, he⟩ := hr
    show truncateAllImages envOf keep (r :: post) = _
    rw [truncateAllImages, he]
    rfl
  | cons u pre ih =>
    cases hu : (manageImageTags (envOf u) keep).1 with
    | error e => exact absurd hu (hpre u (by simp) e)
    | ok val =>
      have h1 : truncateAllImages envOf keep ((u :: pre) ++ r :: post) =
          (u :: (truncateAllImages envOf keep (pre ++ r :: post)).1,
            (truncateAllImages envOf keep (pre ++ r :: post)).2) := by
        show truncateAllImages envOf keep (u :: (pre ++ r :: post)) = _
        rw [truncateAllImages, hu]
      rw [h1, ih (fun v hv e => hpre v (by simp [hv]) e)]
      rfl

theorem truncateAllImages_abort_witness :
    truncateAllImages
      (fun r => if r = "app-a"
        then ⟨.error (), fun _ => none, fun _ => none, fun _ => 202⟩
        else ⟨.ok (some ["1.0.0"]), fun _ => none, fun _ => some "sha", fun _ => 202⟩)
      4 ["app-a", "app-b"] = ([] ++ ["app-a"], true) :=
  truncateAllImages_abort
    (fun r => if r = "app-a"
      then ⟨.error (), fun _ => none, fun _ => none, fun _ => 202⟩
      else ⟨.ok (some ["1.0.0"]), fun _ => none, fun _ => some "sha", fun _ => 202⟩)
    4 [] "app-a" ["app-b"]
    (by intro u hu; simp at hu)
    ⟨.httpError, rfl⟩

end Registry
